import Mathlib

/-!
# Verification of the Crypto-qt5-app processing core

Shallow embedding of `src/mainwindow.cpp` (the `MainWindow::onProcess`,
`MainWindow::onGenerateKey` and `MainWindow::onDownload` logic) over
byte lists (`List Nat`, each element a byte value), together with
models of the Crypto++ primitives the code delegates to (hex codec,
AES-CBC with PKCS padding, SHA-256, HMAC-SHA256), which are not part
of this repository and are modelled from the specification.

Strings shown in Qt widgets (`QString`) are modelled as lists of
UTF-16 code units (`List Nat`); line-edit contents holding hex text
are modelled as `String`.
-/

namespace CryptoApp

/-! ## Hex codec

Modelled from the spec: Crypto++ `HexEncoder` / `HexDecoder` as used by the
code.  `HexEncoder`'s default constructor emits UPPERCASE hex; the digest
and MAC paths pass `false` for the uppercase flag and get lowercase hex.
`HexDecoder` is lenient: characters outside the hex alphabet are skipped,
and a trailing unpaired hex digit is dropped. -/

def hexDigitsLower : List Char :=
  (List.range 10).map (fun i => Char.ofNat (48 + i)) ++
    (List.range 6).map (fun i => Char.ofNat (97 + i))

def hexDigitsUpper : List Char :=
  (List.range 10).map (fun i => Char.ofNat (48 + i)) ++
    (List.range 6).map (fun i => Char.ofNat (65 + i))

def hexLower (l : List Nat) : String :=
  String.mk (l.flatMap fun b => [hexDigitsLower.getD (b / 16) '?', hexDigitsLower.getD (b % 16) '?'])

def hexUpper (l : List Nat) : String :=
  String.mk (l.flatMap fun b => [hexDigitsUpper.getD (b / 16) '?', hexDigitsUpper.getD (b % 16) '?'])

/-- Value of a hex digit character, `none` for non-hex characters. -/
def hexVal (c : Char) : Option Nat :=
  if '0' ≤ c ∧ c ≤ '9' then some (c.toNat - '0'.toNat)
  else if 'a' ≤ c ∧ c ≤ 'f' then some (c.toNat - 'a'.toNat + 10)
  else if 'A' ≤ c ∧ c ≤ 'F' then some (c.toNat - 'A'.toNat + 10)
  else none

/-- Pair up a list of hex-digit values into bytes; a trailing lone digit is dropped. -/
def pairUp : List Nat → List Nat
  | a :: b :: r => (a * 16 + b) :: pairUp r
  | _ => []

/-- Lenient hex decoding as performed by Crypto++ `HexDecoder`:
non-hex characters are skipped, a trailing lone digit is dropped. -/
def hexDecodeLenient (s : String) : List Nat :=
  pairUp (s.data.filterMap hexVal)

/-! ## Byte-list utilities -/

/-- Bytewise XOR of two lists (`List.zipWith Nat.xor`), as used by CBC chaining. -/
def zipXor (a b : List Nat) : List Nat := List.zipWith Nat.xor a b

/-- Fuel-driven worker for `chunksOf` (structural recursion on the fuel,
so that the kernel can evaluate it). -/
def chunksGo (n : Nat) : Nat → List Nat → List (List Nat)
  | _, [] => []
  | 0, _ :: _ => []
  | fuel + 1, a :: l => (a :: l).take n :: chunksGo n fuel ((a :: l).drop n)

/-- Split a list into chunks of `n` elements (last chunk possibly short).
For `n = 0` the result is `[]`. -/
def chunksOf (n : Nat) (l : List Nat) : List (List Nat) :=
  if n = 0 then [] else chunksGo n l.length l

/-- Model of Crypto++ `ArraySink` writing into a pre-sized buffer `init`:
the decoded bytes overwrite the front of the buffer, excess bytes are
silently dropped, and a short write leaves the tail of the buffer as it was. -/
def arraySinkFill (init data : List Nat) : List Nat :=
  data.take init.length ++ init.drop data.length

/-- Model of `SecByteBlock n` whose initial contents are the arbitrary
bytes `junk` (uninitialized memory), normalized to length `n`. -/
def secBlock (n : Nat) (junk : List Nat) : List Nat :=
  (junk ++ List.replicate n 0).take n

/-! ## PKCS padding and AES-CBC

Modelled from the spec (§4.6, BlockCipherEngine): AES in CBC mode with
PKCS block padding over the 16-byte block size.  The AES block permutation
itself lives in Crypto++ and is not in the repository; it is abstracted as
a pair of functions `E D : key → block → block` with `D k` inverting `E k`
on 16-byte blocks. -/

/-- PKCS padding: append `p` copies of the byte `p`, `p = 16 - len % 16 ∈ [1,16]`. -/
def pkcsPad (l : List Nat) : List Nat :=
  l ++ List.replicate (16 - l.length % 16) (16 - l.length % 16)

/-- PKCS unpadding with validation: the final byte `p` must lie in `[1,16]`
and the trailing `p` bytes must all equal `p`. -/
def pkcsPadOk (l : List Nat) : Bool :=
  let p := (l.getLast?).getD 0
  decide (1 ≤ p ∧ p ≤ 16 ∧ l.drop (l.length - p) = List.replicate p p)

inductive CryptoError where
  | invalidKeyLength
  | invalidIvLength
  | invalidCiphertextLength
  | paddingError
deriving Repr, DecidableEq

deriving instance DecidableEq for Except

def pkcsUnpad (l : List Nat) : Except CryptoError (List Nat) :=
  if pkcsPadOk l then .ok (l.take (l.length - (l.getLast?).getD 0))
  else .error .paddingError

/-- CBC encryption of a list of 16-byte blocks with chaining value `prev`. -/
def cbcEncBlocks (E : List Nat → List Nat → List Nat) (k : List Nat) :
    List Nat → List (List Nat) → List (List Nat)
  | _, [] => []
  | prev, b :: bs =>
    let c := E k (zipXor prev b)
    c :: cbcEncBlocks E k c bs

/-- CBC decryption of a list of 16-byte blocks with chaining value `prev`. -/
def cbcDecBlocks (D : List Nat → List Nat → List Nat) (k : List Nat) :
    List Nat → List (List Nat) → List (List Nat)
  | _, [] => []
  | prev, c :: cs => zipXor prev (D k c) :: cbcDecBlocks D k c cs

/-- AES-CBC encryption with PKCS padding (block cipher abstracted as `E`). -/
def cbcEncrypt (E : List Nat → List Nat → List Nat) (k iv pt : List Nat) : List Nat :=
  (cbcEncBlocks E k iv (chunksOf 16 (pkcsPad pt))).flatten

/-- AES-CBC decryption with PKCS unpadding (block cipher abstracted as `D`).
Fails with `invalidCiphertextLength` when the ciphertext is empty or not a
multiple of the 16-byte block size, and with `paddingError` when the
recovered padding is invalid. -/
def cbcDecrypt (D : List Nat → List Nat → List Nat) (k iv ct : List Nat) :
    Except CryptoError (List Nat) :=
  if ct.length = 0 ∨ ct.length % 16 ≠ 0 then .error .invalidCiphertextLength
  else pkcsUnpad (cbcDecBlocks D k iv (chunksOf 16 ct)).flatten

/-! ## SHA-256 and HMAC-SHA256

Modelled from the spec (§4.4, §4.5): the standard FIPS 180-4 SHA-256 and
the standard HMAC construction over it, which the code obtains from
Crypto++ (`SHA256`, `HMAC<SHA256>`). -/

/-- Truncate to a 32-bit word. -/
def w32 (x : Nat) : Nat := x % 4294967296

/-- 32-bit right rotation. -/
def rotr (n x : Nat) : Nat := w32 ((x >>> n) ||| (x <<< (32 - n)))

def bSig0 (x : Nat) : Nat := (rotr 2 x) ^^^ (rotr 13 x) ^^^ (rotr 22 x)

def bSig1 (x : Nat) : Nat := (rotr 6 x) ^^^ (rotr 11 x) ^^^ (rotr 25 x)

def sSig0 (x : Nat) : Nat := (rotr 7 x) ^^^ (rotr 18 x) ^^^ (x >>> 3)

def sSig1 (x : Nat) : Nat := (rotr 17 x) ^^^ (rotr 19 x) ^^^ (x >>> 10)

def chF (x y z : Nat) : Nat := (x &&& y) ^^^ ((x ^^^ 4294967295) &&& z)

def majF (x y z : Nat) : Nat := (x &&& y) ^^^ (x &&& z) ^^^ (y &&& z)

def shaK : List Nat :=
  [1116352408, 1899447441, 3049323471, 3921009573, 961987163,
   1508970993, 2453635748, 2870763221, 3624381080, 310598401,
   607225278, 1426881987, 1925078388, 2162078206, 2614888103,
   3248222580, 3835390401, 4022224774, 264347078, 604807628,
   770255983, 1249150122, 1555081692, 1996064986, 2554220882,
   2821834349, 2952996808, 3210313671, 3336571891, 3584528711,
   113926993, 338241895, 666307205, 773529912, 1294757372,
   1396182291, 1695183700, 1986661051, 2177026350, 2456956037,
   2730485921, 2820302411, 3259730800, 3345764771, 3516065817,
   3600352804, 4094571909, 275423344, 430227734, 506948616,
   659060556, 883997877, 958139571, 1322822218, 1537002063,
   1747873779, 1955562222, 2024104815, 2227730452, 2361852424,
   2428436474, 2756734187, 3204031479, 3329325298]

structure Hash8 where
  a : Nat
  b : Nat
  c : Nat
  d : Nat
  e : Nat
  f : Nat
  g : Nat
  hh : Nat
deriving Repr, DecidableEq

def shaInit : Hash8 :=
  ⟨1779033703, 3144134277, 1013904242, 2773480762, 1359893119, 2600822924, 528734635, 1541459225⟩

/-- Four big-endian bytes of a 32-bit word. -/
def wordBytes (w : Nat) : List Nat :=
  [w / 16777216 % 256, w / 65536 % 256, w / 256 % 256, w % 256]

/-- Big-endian 32-bit words from a list of bytes (length a multiple of 4). -/
def toWords (l : List Nat) : List Nat :=
  (chunksOf 4 l).map fun c =>
    c.getD 0 0 * 16777216 + c.getD 1 0 * 65536 + c.getD 2 0 * 256 + c.getD 3 0

/-- The 64-entry SHA-256 message schedule of one 64-byte block. -/
def msgSchedule (block : List Nat) : List Nat :=
  (List.range 48).foldl
    (fun w _ =>
      w ++ [w32 (sSig1 (w.getD (w.length - 2) 0) + w.getD (w.length - 7) 0 +
                 sSig0 (w.getD (w.length - 15) 0) + w.getD (w.length - 16) 0)])
    (toWords block)

def shaRound (st : Hash8) (kw : Nat × Nat) : Hash8 :=
  let t1 := w32 (st.hh + bSig1 st.e + chF st.e st.f st.g + kw.1 + kw.2)
  let t2 := w32 (bSig0 st.a + majF st.a st.b st.c)
  ⟨w32 (t1 + t2), st.a, st.b, st.c, w32 (st.d + t1), st.e, st.f, st.g⟩

def shaCompress (st : Hash8) (block : List Nat) : Hash8 :=
  let t := (shaK.zip (msgSchedule block)).foldl shaRound st
  ⟨w32 (st.a + t.a), w32 (st.b + t.b), w32 (st.c + t.c), w32 (st.d + t.d),
   w32 (st.e + t.e), w32 (st.f + t.f), w32 (st.g + t.g), w32 (st.hh + t.hh)⟩

/-- SHA-256 message padding: a `0x80` byte, zeros to 56 mod 64, then the
bit length as 8 big-endian bytes. -/
def sha256Pad (msg : List Nat) : List Nat :=
  let len := msg.length
  let k := (119 - len % 64) % 64
  msg ++ [0x80] ++ List.replicate k 0 ++
    [len * 8 / 72057594037927936 % 256, len * 8 / 281474976710656 % 256,
     len * 8 / 1099511627776 % 256, len * 8 / 4294967296 % 256,
     len * 8 / 16777216 % 256, len * 8 / 65536 % 256, len * 8 / 256 % 256, len * 8 % 256]

/-- SHA-256 of a byte list, as 32 bytes. -/
def sha256 (msg : List Nat) : List Nat :=
  let fin := (chunksOf 64 (sha256Pad msg)).foldl shaCompress shaInit
  wordBytes fin.a ++ wordBytes fin.b ++ wordBytes fin.c ++ wordBytes fin.d ++
  wordBytes fin.e ++ wordBytes fin.f ++ wordBytes fin.g ++ wordBytes fin.hh

/-- Standard HMAC-SHA256 (64-byte block size): keys longer than 64 bytes
are hashed first, then zero-padded to 64 bytes. -/
def hmacSha256 (key msg : List Nat) : List Nat :=
  let k0 := if 64 < key.length then sha256 key else key
  let k1 := k0 ++ List.replicate (64 - k0.length) 0
  sha256 ((k1.map (fun b => Nat.xor b 0x5c)) ++ sha256 ((k1.map (fun b => Nat.xor b 0x36)) ++ msg))

/-! ## UTF-8 / UTF-16 text model

`QString` is modelled as a list of UTF-16 code units.  `QString::fromUtf8`
is a strict UTF-8 decoder (overlong forms, surrogates and out-of-range
leads are invalid) that emits one U+FFFD replacement per invalid byte;
`QString::toUtf8` re-encodes, emitting U+FFFD's encoding for unpaired
surrogates.  The classification in the decrypt branch only ever compares
the re-encoding with the original buffer, so only strictness (not the
exact replacement policy) is observable there. -/

def isCont (b : Nat) : Bool := decide (0x80 ≤ b ∧ b ≤ 0xBF)

/-- First-continuation validity for a 3-byte lead (excludes overlong forms
and UTF-16 surrogates). -/
def cont3ok (b c1 : Nat) : Bool :=
  if b = 0xE0 then decide (0xA0 ≤ c1 ∧ c1 ≤ 0xBF)
  else if b = 0xED then decide (0x80 ≤ c1 ∧ c1 ≤ 0x9F)
  else isCont c1

/-- First-continuation validity for a 4-byte lead (excludes overlong forms
and code points above U+10FFFF). -/
def cont4ok (b c1 : Nat) : Bool :=
  if b = 0xF0 then decide (0x90 ≤ c1 ∧ c1 ≤ 0xBF)
  else if b = 0xF4 then decide (0x80 ≤ c1 ∧ c1 ≤ 0x8F)
  else isCont c1

/-- UTF-16 code units of a code point (surrogate pair above U+FFFF). -/
def unitsOf (cp : Nat) : List Nat :=
  if cp < 0x10000 then [cp]
  else [0xD800 + (cp - 0x10000) / 0x400, 0xDC00 + (cp - 0x10000) % 0x400]

/-- One step of the UTF-8 decoder, with `dec` decoding the remainder:
decodes the sequence led by `b`, or emits one U+FFFD for an invalid `b`. -/
def utf8Step (dec : List Nat → List Nat) (b : Nat) (rest : List Nat) : List Nat :=
  if b < 0x80 then b :: dec rest
  else if b < 0xC2 then 0xFFFD :: dec rest
  else if b < 0xE0 then
    match rest with
    | c1 :: r2 =>
      if isCont c1 then ((b - 0xC0) * 0x40 + (c1 - 0x80)) :: dec r2
      else 0xFFFD :: dec (c1 :: r2)
    | [] => [0xFFFD]
  else if b < 0xF0 then
    match rest with
    | c1 :: c2 :: r3 =>
      if cont3ok b c1 && isCont c2 then
        ((b - 0xE0) * 0x1000 + (c1 - 0x80) * 0x40 + (c2 - 0x80)) :: dec r3
      else 0xFFFD :: dec (c1 :: c2 :: r3)
    | [c1] => 0xFFFD :: dec [c1]
    | [] => [0xFFFD]
  else if b ≤ 0xF4 then
    match rest with
    | c1 :: c2 :: c3 :: r4 =>
      if cont4ok b c1 && isCont c2 && isCont c3 then
        unitsOf ((b - 0xF0) * 0x40000 + (c1 - 0x80) * 0x1000 + (c2 - 0x80) * 0x40 + (c3 - 0x80))
          ++ dec r4
      else 0xFFFD :: dec (c1 :: c2 :: c3 :: r4)
    | [c1, c2] => 0xFFFD :: dec [c1, c2]
    | [c1] => 0xFFFD :: dec [c1]
    | [] => [0xFFFD]
  else 0xFFFD :: dec rest

/-- Fuel-driven worker for `utf8Decode` (structural recursion on the fuel,
so that the kernel can evaluate it; each step consumes at least one byte). -/
def utf8DecodeGo : Nat → List Nat → List Nat
  | _, [] => []
  | 0, _ :: _ => []
  | fuel + 1, b :: rest => utf8Step (utf8DecodeGo fuel) b rest

/-- Strict UTF-8 decoding of a byte list into UTF-16 code units, with one
U+FFFD replacement per invalid byte. -/
def utf8Decode (l : List Nat) : List Nat := utf8DecodeGo l.length l

/-- UTF-8 bytes of a code point below U+110000. -/
def utf8Bytes (cp : Nat) : List Nat :=
  if cp < 0x80 then [cp]
  else if cp < 0x800 then [0xC0 + cp / 0x40, 0x80 + cp % 0x40]
  else if cp < 0x10000 then [0xE0 + cp / 0x1000, 0x80 + cp / 0x40 % 0x40, 0x80 + cp % 0x40]
  else [0xF0 + cp / 0x40000, 0x80 + cp / 0x1000 % 0x40, 0x80 + cp / 0x40 % 0x40, 0x80 + cp % 0x40]

/-- Fuel-driven worker for `utf8Encode`. -/
def utf8EncodeGo : Nat → List Nat → List Nat
  | _, [] => []
  | 0, _ :: _ => []
  | fuel + 1, u :: rest =>
    if u < 0xD800 then utf8Bytes u ++ utf8EncodeGo fuel rest
    else if u < 0xDC00 then
      match rest with
      | l :: r2 =>
        if 0xDC00 ≤ l ∧ l < 0xE000 then
          utf8Bytes (0x10000 + (u - 0xD800) * 0x400 + (l - 0xDC00)) ++ utf8EncodeGo fuel r2
        else [0xEF, 0xBF, 0xBD] ++ utf8EncodeGo fuel (l :: r2)
      | [] => [0xEF, 0xBF, 0xBD]
    else if u < 0xE000 then [0xEF, 0xBF, 0xBD] ++ utf8EncodeGo fuel rest
    else utf8Bytes u ++ utf8EncodeGo fuel rest

/-- UTF-8 encoding of a list of UTF-16 code units; unpaired surrogates
become the encoding of U+FFFD. -/
def utf8Encode (l : List Nat) : List Nat := utf8EncodeGo l.length l

/-- UTF-16LE code units from a byte list (pairs little-endian; a trailing
odd byte is dropped), modelling `QString::fromUtf16` over the buffer. -/
def toU16 : List Nat → List Nat
  | b0 :: b1 :: r => (b0 + 256 * b1) :: toU16 r
  | _ => []

/-- UTF-16 code units of an ASCII string. -/
def asciiCodes (s : String) : List Nat := s.data.map Char.toNat

/-! ## Content sniffer (embedded from the decrypt branch of
`MainWindow::onProcess`, src/mainwindow.cpp lines 397-431) -/

inductive SniffResult where
  | utf8Text (units : List Nat)
  | utf16Text (units : List Nat)
  | binary
deriving Repr, DecidableEq

/-- Number of zero bytes at odd indices below `limit`
(the loop at src/mainwindow.cpp line 413-415). -/
def zerosOdd (pd : List Nat) (limit : Nat) : Nat :=
  (List.range limit).countP fun i => i % 2 == 1 && pd.getD i 1 == 0

/-- Classification of a decrypted buffer, embedded from
src/mainwindow.cpp lines 397-431: empty buffers are not classified as
text; otherwise strict UTF-8 round-trip wins, then the UTF-16LE
heuristic (BOM, or more than 3 odd-index zeros in the first
`min(size-1, 200)` bytes) provided the length is even. -/
def sniff (pd : List Nat) : SniffResult :=
  if pd = [] then .binary
  else
    let dec := utf8Decode pd
    if utf8Encode dec = pd then .utf8Text dec
    else
      let looks :=
        2 ≤ pd.length ∧
          (pd.take 2 = [0xFF, 0xFE] ∨ 3 < zerosOdd pd (min (pd.length - 1) 200))
      if looks ∧ pd.length % 2 = 0 then .utf16Text (toU16 pd) else .binary

/-- Modelled from the spec: the ContentSniffer algorithm of §4.7, as the
spec words it (ordered, first match wins, no special case for the empty
buffer): strict UTF-8 round-trip gives `Utf8Text`; else a BOM at the
start or more than 3 zero bytes at odd indices among the first
`min(length-1, 200)` bytes, combined with an even total length, gives
`Utf16LeText`; else `Binary`. -/
def sniffSpec (pd : List Nat) : SniffResult :=
  let dec := utf8Decode pd
  if utf8Encode dec = pd then .utf8Text dec
  else
    let heur := pd.take 2 = [0xFF, 0xFE] ∨ 3 < zerosOdd pd (min (pd.length - 1) 200)
    if heur ∧ pd.length % 2 = 0 then .utf16Text (toU16 pd) else .binary

/-! ## Session state and operation dispatch (embedded from
`MainWindow` in src/mainwindow.h and src/mainwindow.cpp) -/

inductive LastAction where
  | none
  | generatedKey
  | processedData
  | shaOrHmacText
deriving Repr, DecidableEq

/-- The `MainWindow` fields the processing logic reads and writes.
Text shown in widgets (`outputText`, `lastTextOutput`) is a list of
UTF-16 code units; the line edits hold hex text as `String`. -/
structure Session where
  processedData : List Nat
  lastOutputIsText : Bool
  lastTextOutput : List Nat
  outputText : List Nat
  keyHexEdit : String
  hmacKeyEdit : String
  lastGeneratedSymKeyHex : String
  lastGeneratedHmacKeyHex : String
  lastAction : LastAction
deriving Repr, DecidableEq

/-- The crypto parameters loaded by `loadConfig` (defaults 32 / 16 / 32). -/
structure Config where
  aesKeyBytes : Nat
  aesIvBytes : Nat
  hmacKeyBytes : Nat
deriving Repr, DecidableEq

/-- Outputs of the random number generator during one operation, plus the
arbitrary initial contents of the `SecByteBlock` key buffer
(uninitialized memory). -/
structure Rng where
  freshSym : List Nat
  freshHmac : List Nat
  iv : List Nat
  junk : List Nat
deriving Repr, DecidableEq

/-- The operation selected in the combo box. -/
inductive Op where
  | generateKey
  | aesEncrypt
  | aesDecrypt
  | shaDigest
  | hmacSign
  | other
deriving Repr, DecidableEq

/-- Outcome reported through `setStatus` / message boxes. -/
inductive Status where
  | ok
  | cryptoErr (e : CryptoError)
  | tooShort
  | missingKey
  | unimplemented
deriving Repr, DecidableEq

/-- Embedding of `MainWindow::onGenerateKey` (src/mainwindow.cpp lines 180-214):
generates both keys, shows them UPPERCASE-hex in the line edits
(Crypto++ `HexEncoder` default), records them, sets the action to
`GeneratedKey` and clears the processed output. -/
def onGenerateKey (cfg : Config) (rnd : Rng) (s : Session) : Session :=
  let symHex := hexUpper (secBlock cfg.aesKeyBytes rnd.freshSym)
  let hmacHex := hexUpper (secBlock cfg.hmacKeyBytes rnd.freshHmac)
  { s with
    keyHexEdit := symHex
    hmacKeyEdit := hmacHex
    lastGeneratedSymKeyHex := symHex
    lastGeneratedHmacKeyHex := hmacHex
    lastAction := .generatedKey
    processedData := []
    lastOutputIsText := false
    lastTextOutput := []
    outputText :=
      asciiCodes "Symmetric and HMAC keys generated. Click Download to save the key pair." }

/-- Resolution of the HMAC key in the `HMAC-SHA256 (file)` branch
(src/mainwindow.cpp lines 452-471): explicit HMAC key field first, else
the symmetric key field, else a fresh random key that is written back to
the HMAC key field (UPPERCASE hex) and recorded.  Field-supplied keys
are hex-decoded leniently into a fixed `hmacKeyBytes`-sized buffer. -/
def resolveHmacKey (cfg : Config) (rnd : Rng) (s : Session) : List Nat × Session :=
  if s.hmacKeyEdit ≠ "" then
    (arraySinkFill (secBlock cfg.hmacKeyBytes rnd.junk) (hexDecodeLenient s.hmacKeyEdit), s)
  else if s.keyHexEdit ≠ "" then
    (arraySinkFill (secBlock cfg.hmacKeyBytes rnd.junk) (hexDecodeLenient s.keyHexEdit), s)
  else
    let key := secBlock cfg.hmacKeyBytes rnd.freshHmac
    (key, { s with hmacKeyEdit := hexUpper key, lastGeneratedHmacKeyHex := hexUpper key })

/-- Embedding of `MainWindow::onProcess` (src/mainwindow.cpp lines 308-513), with the
AES block cipher abstracted as `E`/`D` (key → 16-byte block → 16-byte
block) and the random values of the run supplied in `rnd`.  Returns the
new session state and the reported status; every failure path returns
the state exactly as the code leaves it. -/
def onProcess (E D : List Nat → List Nat → List Nat) (cfg : Config) (rnd : Rng)
    (op : Op) (input : List Nat) (s : Session) : Session × Status :=
  match op with
  | .generateKey => (onGenerateKey cfg rnd s, .ok)
  | .aesEncrypt =>
    -- ensure symmetric key present; if not, generate one and show it
    let s1 := if s.keyHexEdit = "" then onGenerateKey cfg rnd s else s
    let key := arraySinkFill (secBlock cfg.aesKeyBytes rnd.junk) (hexDecodeLenient s1.keyHexEdit)
    let iv := secBlock cfg.aesIvBytes rnd.iv
    -- SetKeyWithIV throws for an invalid AES key size or IV size
    if ¬(cfg.aesKeyBytes = 16 ∨ cfg.aesKeyBytes = 24 ∨ cfg.aesKeyBytes = 32) then
      (s1, .cryptoErr .invalidKeyLength)
    else if cfg.aesIvBytes ≠ 16 then
      (s1, .cryptoErr .invalidIvLength)
    else
      let ct := cbcEncrypt E key iv input
      ({ s1 with
          processedData := iv ++ ct
          outputText := asciiCodes
            ("Encryption successful. Ciphertext size (IV + ciphertext): " ++
              toString (iv.length + ct.length) ++ " bytes")
          lastAction := .processedData
          lastOutputIsText := false }, .ok)
  | .aesDecrypt =>
    if input.length < cfg.aesIvBytes then (s, .tooShort)
    else
      let ivBytes := input.take cfg.aesIvBytes
      let cipherOnly := input.drop cfg.aesIvBytes
      if s.keyHexEdit = "" then (s, .missingKey)
      else
        let key := arraySinkFill (secBlock cfg.aesKeyBytes rnd.junk) (hexDecodeLenient s.keyHexEdit)
        if ¬(cfg.aesKeyBytes = 16 ∨ cfg.aesKeyBytes = 24 ∨ cfg.aesKeyBytes = 32) then
          (s, .cryptoErr .invalidKeyLength)
        else if ivBytes.length ≠ 16 then
          (s, .cryptoErr .invalidIvLength)
        else
          match cbcDecrypt D key ivBytes cipherOnly with
          | .error e => (s, .cryptoErr e)
          | .ok recovered =>
            let base := { s with
              processedData := recovered
              lastOutputIsText := false
              lastTextOutput := ([] : List Nat) }
            match sniff recovered with
            | .utf8Text dec =>
              ({ base with
                  lastOutputIsText := true
                  lastTextOutput := dec
                  outputText := dec.take 10000
                  lastAction := .processedData }, .ok)
            | .utf16Text u16 =>
              ({ base with
                  lastOutputIsText := true
                  lastTextOutput := u16
                  outputText := u16.take 10000
                  lastAction := .processedData }, .ok)
            | .binary =>
              ({ base with
                  outputText :=
                    if recovered = [] then asciiCodes "Decryption produced empty output"
                    else asciiCodes ("Decryption successful. Plaintext size: " ++
                      toString recovered.length ++ " bytes")
                  lastAction := .processedData }, .ok)
  | .shaDigest =>
    let digest := hexLower (sha256 input)
    ({ s with
        outputText := asciiCodes digest
        processedData := []
        lastAction := .shaOrHmacText
        lastOutputIsText := true
        lastTextOutput := asciiCodes digest }, .ok)
  | .hmacSign =>
    let (key, s1) := resolveHmacKey cfg rnd s
    let mac := hmacSha256 key input
    let combined := utf8Decode (input ++ asciiCodes (hexLower mac))
    ({ s1 with
        processedData := input ++ mac
        outputText := combined
        lastAction := .shaOrHmacText
        lastOutputIsText := true
        lastTextOutput := combined }, .ok)
  | .other => (s, .unimplemented)

/-- The bytes `MainWindow::onDownload` writes for a processed output
(src/mainwindow.cpp lines 271-289): the UTF-8 encoding of the retained
full text when the output is text, else the binary buffer. -/
def downloadBytes (s : Session) : List Nat :=
  if s.lastOutputIsText then utf8Encode s.lastTextOutput else s.processedData

/-! ## Theorems -/



theorem chunksGo_congr {n : Nat} (hn : n ≠ 0) :
    ∀ (f1 : Nat) (l : List Nat) (f2 : Nat), l.length ≤ f1 → l.length ≤ f2 →
      chunksGo n f1 l = chunksGo n f2 l := by
  intro f1
  induction f1 with
  | zero =>
    intro l f2 h1 _
    have : l = [] := List.eq_nil_of_length_eq_zero (Nat.le_zero.mp h1)
    subst this
    cases f2 <;> rfl
  | succ f1 ih =>
    intro l f2 h1 h2
    cases l with
    | nil => cases f2 <;> rfl
    | cons a t =>
      cases f2 with
      | zero => simp at h2
      | succ f2 =>
        simp only [chunksGo]
        congr 1
        apply ih
        · simp only [List.length_drop, List.length_cons] at *
          omega
        · simp only [List.length_drop, List.length_cons] at *
          omega

theorem chunksOf_nil (n : Nat) : chunksOf n [] = [] := by
  simp [chunksOf, chunksGo]

theorem chunksOf_cons {n : Nat} (hn : n ≠ 0) (l : List Nat) (hl : l ≠ []) :
    chunksOf n l = l.take n :: chunksOf n (l.drop n) := by
  obtain ⟨a, t, rfl⟩ := List.exists_cons_of_ne_nil hl
  simp only [chunksOf, if_neg hn]
  have : (a :: t).length = t.length + 1 := by simp
  rw [this]
  simp only [chunksGo]
  congr 1
  apply chunksGo_congr hn
  · simp only [List.length_drop, List.length_cons]
    omega
  · exact Nat.le_refl _

theorem arraySinkFill_length (init data : List Nat) :
    (arraySinkFill init data).length = init.length := by
  simp only [arraySinkFill, List.length_append, List.length_take, List.length_drop]
  omega

theorem secBlock_length (n : Nat) (junk : List Nat) : (secBlock n junk).length = n := by
  simp only [secBlock, List.length_take, List.length_append, List.length_replicate]
  omega

/-! ## Chunking and CBC lemmas -/

theorem chunksOf_flatten {n : Nat} (hn : n ≠ 0) (l : List Nat) :
    (chunksOf n l).flatten = l := by
  have key : ∀ (k : Nat) (l : List Nat), l.length ≤ k → (chunksOf n l).flatten = l := by
    intro k
    induction k with
    | zero =>
      intro l h
      have : l = [] := List.eq_nil_of_length_eq_zero (Nat.le_zero.mp h)
      subst this
      simp [chunksOf_nil]
    | succ k ih =>
      intro l h
      by_cases hl : l = []
      · subst hl; simp [chunksOf_nil]
      · rw [chunksOf_cons hn l hl, List.flatten_cons,
          ih (l.drop n) (by
            have : l.length ≠ 0 := by simpa using hl
            simp only [List.length_drop]
            omega)]
        exact List.take_append_drop n l
  exact key l.length l (Nat.le_refl _)

theorem chunksOf_length_mem {n : Nat} (hn : n ≠ 0) (l : List Nat) (hdvd : n ∣ l.length) :
    ∀ b ∈ chunksOf n l, b.length = n := by
  have key : ∀ (k : Nat) (l : List Nat), l.length ≤ k → n ∣ l.length →
      ∀ b ∈ chunksOf n l, b.length = n := by
    intro k
    induction k with
    | zero =>
      intro l h _
      have : l = [] := List.eq_nil_of_length_eq_zero (Nat.le_zero.mp h)
      subst this
      simp [chunksOf_nil]
    | succ k ih =>
      intro l h hdvd b hb
      by_cases hl : l = []
      · subst hl; simp [chunksOf_nil] at hb
      · rw [chunksOf_cons hn l hl] at hb
        have hlen : l.length ≠ 0 := by simpa using hl
        have hge : n ≤ l.length := Nat.le_of_dvd (Nat.pos_of_ne_zero hlen) hdvd
        rcases List.mem_cons.mp hb with hb | hb
        · subst hb
          simp only [List.length_take]
          omega
        · exact ih (l.drop n)
            (by simp only [List.length_drop]; omega)
            (by
              simp only [List.length_drop]
              obtain ⟨c, hc⟩ := hdvd
              exact ⟨c - 1, by cases c <;> simp_all [Nat.mul_succ]⟩)
            b hb
  exact key l.length l (Nat.le_refl _) hdvd

theorem chunksOf_length_count {n : Nat} (hn : n ≠ 0) (l : List Nat) (hdvd : n ∣ l.length) :
    (chunksOf n l).length = l.length / n := by
  have key : ∀ (k : Nat) (l : List Nat), l.length ≤ k → n ∣ l.length →
      (chunksOf n l).length = l.length / n := by
    intro k
    induction k with
    | zero =>
      intro l h _
      have : l = [] := List.eq_nil_of_length_eq_zero (Nat.le_zero.mp h)
      subst this
      simp [chunksOf_nil]
    | succ k ih =>
      intro l h hdvd
      by_cases hl : l = []
      · subst hl; simp [chunksOf_nil]
      · have hlen : l.length ≠ 0 := by simpa using hl
        have hge : n ≤ l.length := Nat.le_of_dvd (Nat.pos_of_ne_zero hlen) hdvd
        rw [chunksOf_cons hn l hl]
        simp only [List.length_cons]
        rw [ih (l.drop n)
            (by simp only [List.length_drop]; omega)
            (by
              simp only [List.length_drop]
              obtain ⟨c, hc⟩ := hdvd
              exact ⟨c - 1, by cases c <;> simp_all [Nat.mul_succ]⟩)]
        simp only [List.length_drop]
        obtain ⟨c, hc⟩ := hdvd
        cases c with
        | zero => omega
        | succ c =>
          rw [hc, Nat.mul_succ, Nat.add_sub_cancel,
            Nat.mul_div_cancel_left _ (Nat.pos_of_ne_zero hn)]
          rw [show n * c + n = n * (c + 1) from (Nat.mul_succ n c).symm,
            Nat.mul_div_cancel_left _ (Nat.pos_of_ne_zero hn)]
  exact key l.length l (Nat.le_refl _) hdvd

theorem chunksOf_flatten_inv {n : Nat} (hn : n ≠ 0) (bs : List (List Nat))
    (hall : ∀ b ∈ bs, b.length = n) : chunksOf n bs.flatten = bs := by
  induction bs with
  | nil => simp [chunksOf_nil]
  | cons b bs ih =>
    have hb : b.length = n := hall b (by simp)
    have hnil : b ++ bs.flatten ≠ [] := by
      intro hb'
      have hb0 : b = [] := (List.append_eq_nil.mp hb').1
      rw [hb0] at hb
      simp at hb
      omega
    rw [List.flatten_cons, chunksOf_cons hn _ hnil]
    rw [List.take_left' hb, List.drop_left' hb]
    rw [ih (fun x hx => hall x (by simp [hx]))]

theorem zipXor_length (a b : List Nat) : (zipXor a b).length = min a.length b.length := by
  simp [zipXor]

theorem zipXor_cancel : ∀ (a b : List Nat), a.length = b.length → zipXor a (zipXor a b) = b := by
  intro a
  induction a with
  | nil =>
    intro b h
    have : b = [] := List.eq_nil_of_length_eq_zero (by simpa using h.symm)
    subst this
    rfl
  | cons x a ih =>
    intro b h
    cases b with
    | nil => simp at h
    | cons y b =>
      simp only [zipXor, List.zipWith_cons_cons] at *
      congr 1
      · show x ^^^ (x ^^^ y) = y
        rw [← Nat.xor_assoc, Nat.xor_self, Nat.zero_xor]
      · exact ih b (by simpa using h)

theorem cbcEncBlocks_length (E : List Nat → List Nat → List Nat) (k : List Nat) :
    ∀ (prev : List Nat) (bs : List (List Nat)), (cbcEncBlocks E k prev bs).length = bs.length := by
  intro prev bs
  induction bs generalizing prev with
  | nil => rfl
  | cons b bs ih => simp [cbcEncBlocks, ih]

theorem cbcEncBlocks_mem_length (E : List Nat → List Nat → List Nat) (k : List Nat)
    (hE : ∀ b, b.length = 16 → (E k b).length = 16) :
    ∀ (prev : List Nat) (bs : List (List Nat)), prev.length = 16 →
      (∀ b ∈ bs, b.length = 16) →
      ∀ c ∈ cbcEncBlocks E k prev bs, c.length = 16 := by
  intro prev bs
  induction bs generalizing prev with
  | nil => intro _ _ c hc; simp [cbcEncBlocks] at hc
  | cons b bs ih =>
    intro hprev hall c hc
    have hb : b.length = 16 := hall b (by simp)
    have hxl : (zipXor prev b).length = 16 := by
      simp [zipXor_length, hprev, hb]
    have hcl : (E k (zipXor prev b)).length = 16 := hE _ hxl
    simp only [cbcEncBlocks, List.mem_cons] at hc
    rcases hc with hc | hc
    · subst hc; exact hcl
    · exact ih _ hcl (fun x hx => hall x (by simp [hx])) c hc

theorem cbcDecBlocks_cbcEncBlocks (E D : List Nat → List Nat → List Nat) (k : List Nat)
    (hE : ∀ b, b.length = 16 → (E k b).length = 16)
    (hD : ∀ b, b.length = 16 → D k (E k b) = b) :
    ∀ (bs : List (List Nat)) (prev : List Nat), prev.length = 16 →
      (∀ b ∈ bs, b.length = 16) →
      cbcDecBlocks D k prev (cbcEncBlocks E k prev bs) = bs := by
  intro bs
  induction bs with
  | nil => intro prev _ _; rfl
  | cons b bs ih =>
    intro prev hprev hall
    have hb : b.length = 16 := hall b (by simp)
    have hxl : (zipXor prev b).length = 16 := by
      simp [zipXor_length, hprev, hb]
    simp only [cbcEncBlocks, cbcDecBlocks]
    congr 1
    · rw [hD _ hxl]
      exact zipXor_cancel prev b (by rw [hprev, hb])
    · exact ih _ (hE _ hxl) (fun x hx => hall x (by simp [hx]))

theorem pkcsPad_length (l : List Nat) :
    (pkcsPad l).length = l.length + (16 - l.length % 16) := by
  simp [pkcsPad]

theorem pkcsPad_length_mod (l : List Nat) : (pkcsPad l).length % 16 = 0 := by
  rw [pkcsPad_length]
  omega

theorem pkcsPad_ne_nil (l : List Nat) : pkcsPad l ≠ [] := by
  intro h
  have := congrArg List.length h
  rw [pkcsPad_length] at this
  simp at this
  omega

theorem getLast?_replicate (k a : Nat) :
    (List.replicate k a).getLast? = if k = 0 then none else some a := by
  cases k with
  | zero => rfl
  | succ k =>
    rw [List.replicate_succ', List.getLast?_concat]
    simp

theorem pkcsUnpad_append_replicate (l : List Nat) (m : Nat) (h1 : 1 ≤ m) (h2 : m ≤ 16) :
    pkcsUnpad (l ++ List.replicate m m) = .ok l := by
  have hrep : List.replicate m m ≠ ([] : List Nat) := by
    simp only [ne_eq, List.replicate_eq_nil_iff]
    omega
  have hlast : (l ++ List.replicate m m).getLast? = some m := by
    rw [List.getLast?_append_of_ne_nil _ hrep, getLast?_replicate, if_neg (by omega)]
  have hlen : (l ++ List.replicate m m).length = l.length + m := by simp
  have hdrop : (l ++ List.replicate m m).drop ((l ++ List.replicate m m).length - m) =
      List.replicate m m := by
    rw [hlen, Nat.add_sub_cancel]
    exact List.drop_left l _
  have hok : pkcsPadOk (l ++ List.replicate m m) = true := by
    rw [pkcsPadOk]
    simp only [hlast, Option.getD_some]
    rw [decide_eq_true_iff]
    exact ⟨h1, h2, hdrop⟩
  rw [pkcsUnpad, if_pos hok, hlast]
  simp only [Option.getD_some, hlen, Nat.add_sub_cancel]
  exact congrArg Except.ok (List.take_left l _)

theorem pkcsUnpad_pkcsPad (l : List Nat) : pkcsUnpad (pkcsPad l) = .ok l := by
  rw [pkcsPad]
  exact pkcsUnpad_append_replicate l _ (by omega) (by omega)

theorem length_flatten_const16 (bs : List (List Nat)) (h : ∀ b ∈ bs, b.length = 16) :
    bs.flatten.length = 16 * bs.length := by
  induction bs with
  | nil => simp
  | cons b bs ih =>
    simp only [List.flatten_cons, List.length_append, List.length_cons]
    rw [h b (by simp), ih (fun x hx => h x (by simp [hx]))]
    ring

theorem cbcEncrypt_length (E : List Nat → List Nat → List Nat) (k iv pt : List Nat)
    (hE : ∀ b, b.length = 16 → (E k b).length = 16) (hiv : iv.length = 16) :
    (cbcEncrypt E k iv pt).length = pt.length + (16 - pt.length % 16) := by
  have hdvd : (16 : Nat) ∣ (pkcsPad pt).length := by
    have := pkcsPad_length_mod pt
    omega
  have hall : ∀ b ∈ chunksOf 16 (pkcsPad pt), b.length = 16 :=
    chunksOf_length_mem (by omega) _ hdvd
  have hmem : ∀ c ∈ cbcEncBlocks E k iv (chunksOf 16 (pkcsPad pt)), c.length = 16 :=
    cbcEncBlocks_mem_length E k hE iv _ hiv hall
  rw [cbcEncrypt, length_flatten_const16 _ hmem]
  rw [cbcEncBlocks_length, chunksOf_length_count (by omega) _ hdvd]
  rw [pkcsPad_length]
  omega

/-- The CBC round trip at block level, for any block cipher pair. -/
theorem cbcDecrypt_cbcEncrypt (E D : List Nat → List Nat → List Nat) (k iv pt : List Nat)
    (hE : ∀ b, b.length = 16 → (E k b).length = 16)
    (hD : ∀ b, b.length = 16 → D k (E k b) = b)
    (hiv : iv.length = 16) :
    cbcDecrypt D k iv (cbcEncrypt E k iv pt) = .ok pt := by
  have hdvd : (16 : Nat) ∣ (pkcsPad pt).length := by
    have := pkcsPad_length_mod pt
    omega
  have hall : ∀ b ∈ chunksOf 16 (pkcsPad pt), b.length = 16 :=
    chunksOf_length_mem (by omega) _ hdvd
  have hctlen : (cbcEncrypt E k iv pt).length = pt.length + (16 - pt.length % 16) :=
    cbcEncrypt_length E k iv pt hE hiv
  have hmem : ∀ c ∈ cbcEncBlocks E k iv (chunksOf 16 (pkcsPad pt)), c.length = 16 :=
    cbcEncBlocks_mem_length E k hE iv _ hiv hall
  rw [cbcDecrypt, if_neg (by rw [hctlen]; omega)]
  rw [cbcEncrypt, chunksOf_flatten_inv (by omega) _ hmem]
  rw [cbcDecBlocks_cbcEncBlocks E D k hE hD _ iv hiv hall]
  rw [chunksOf_flatten (by omega)]
  exact pkcsUnpad_pkcsPad pt

/-! ## Claim theorems -/

/-- C1: For every byte buffer `b`, every key `k` of length 16, 24 or 32
bytes, and every 16-byte IV, AES-CBC decryption (with PKCS padding) of the
ciphertext produced by AES-CBC encryption of `b` under `k` and `iv`, using
the same `k` and `iv`, recovers exactly `b` — for any block-cipher pair
`E`/`D` in which `D k` inverts `E k` on 16-byte blocks (as the AES
permutation does). -/
theorem cbc_roundTrip (E D : List Nat → List Nat → List Nat) (k iv b : List Nat)
    (hk : k.length = 16 ∨ k.length = 24 ∨ k.length = 32)
    (hiv : iv.length = 16)
    (hE : ∀ blk, blk.length = 16 → (E k blk).length = 16)
    (hD : ∀ blk, blk.length = 16 → D k (E k blk) = blk) :
    cbcDecrypt D k iv (cbcEncrypt E k iv b) = .ok b :=
  cbcDecrypt_cbcEncrypt E D k iv b hE hD hiv

/-- Witness for C1 at a concrete input (identity block cipher, 32-byte
key, 16-byte IV, the 5-byte buffer "hello"). -/
theorem cbc_roundTrip_witness :
    cbcDecrypt (fun _ blk => blk) (List.replicate 32 0) (List.replicate 16 0)
      (cbcEncrypt (fun _ blk => blk) (List.replicate 32 0) (List.replicate 16 0)
        [104, 101, 108, 108, 111]) = .ok [104, 101, 108, 108, 111] :=
  cbc_roundTrip (fun _ blk => blk) (fun _ blk => blk) (List.replicate 32 0)
    (List.replicate 16 0) [104, 101, 108, 108, 111]
    (Or.inr (Or.inr (by simp))) (by simp) (fun _ h => h) (fun _ _ => rfl)

/-- C2: a successful Encrypt produces exactly IV (16 bytes) followed by the
ciphertext, with no MAC and no length prefix; the ciphertext length is a
multiple of 16 and strictly greater than the input length; encrypting a
5-byte input yields a 32-byte artifact. -/
theorem encrypt_artifact_layout (E D : List Nat → List Nat → List Nat) (cfg : Config)
    (rnd : Rng) (input : List Nat) (s : Session)
    (hkLen : cfg.aesKeyBytes = 16 ∨ cfg.aesKeyBytes = 24 ∨ cfg.aesKeyBytes = 32)
    (hivLen : cfg.aesIvBytes = 16)
    (hE : ∀ k blk, blk.length = 16 → (E k blk).length = 16) :
    (onProcess E D cfg rnd .aesEncrypt input s).2 = .ok ∧
    ∃ key,
      (onProcess E D cfg rnd .aesEncrypt input s).1.processedData =
        secBlock 16 rnd.iv ++ cbcEncrypt E key (secBlock 16 rnd.iv) input ∧
      (cbcEncrypt E key (secBlock 16 rnd.iv) input).length % 16 = 0 ∧
      input.length < (cbcEncrypt E key (secBlock 16 rnd.iv) input).length ∧
      (onProcess E D cfg rnd .aesEncrypt input s).1.processedData.length =
        16 + (cbcEncrypt E key (secBlock 16 rnd.iv) input).length ∧
      (input.length = 5 →
        (onProcess E D cfg rnd .aesEncrypt input s).1.processedData.length = 32) := by
  have hivblk : (secBlock 16 rnd.iv).length = 16 := secBlock_length 16 rnd.iv
  simp only [onProcess]
  rw [if_neg (not_not.mpr hkLen), if_neg (fun h => h hivLen), hivLen]
  set s1 := if s.keyHexEdit = "" then onGenerateKey cfg rnd s else s with hs1
  set key := arraySinkFill (secBlock cfg.aesKeyBytes rnd.junk) (hexDecodeLenient s1.keyHexEdit)
    with hkey
  have hct : (cbcEncrypt E key (secBlock 16 rnd.iv) input).length =
      input.length + (16 - input.length % 16) :=
    cbcEncrypt_length E key (secBlock 16 rnd.iv) input (hE key) hivblk
  refine ⟨rfl, key, rfl, ?_, ?_, ?_, ?_⟩
  · rw [hct]; omega
  · rw [hct]; omega
  · simp only [List.length_append, hivblk, hct]
  · intro h5
    simp only [List.length_append, hivblk, hct, h5]

/-- Witness for C2 at a concrete input (default config, identity block
cipher, key field "00", input "hello"). -/
theorem encrypt_artifact_layout_witness :
    (onProcess (fun _ blk => blk) (fun _ blk => blk) ⟨32, 16, 32⟩ ⟨[], [], [], []⟩ .aesEncrypt
      [104, 101, 108, 108, 111] ⟨[], false, [], [], "00", "", "", "", .none⟩).2 = .ok ∧
    ∃ key,
      (onProcess (fun _ blk => blk) (fun _ blk => blk) ⟨32, 16, 32⟩ ⟨[], [], [], []⟩ .aesEncrypt
        [104, 101, 108, 108, 111] ⟨[], false, [], [], "00", "", "", "", .none⟩).1.processedData =
        secBlock 16 [] ++ cbcEncrypt (fun _ blk => blk) key (secBlock 16 []) [104, 101, 108, 108, 111] ∧
      (cbcEncrypt (fun _ blk => blk) key (secBlock 16 []) [104, 101, 108, 108, 111]).length % 16 = 0 ∧
      ([104, 101, 108, 108, 111] : List Nat).length <
        (cbcEncrypt (fun _ blk => blk) key (secBlock 16 []) [104, 101, 108, 108, 111]).length ∧
      (onProcess (fun _ blk => blk) (fun _ blk => blk) ⟨32, 16, 32⟩ ⟨[], [], [], []⟩ .aesEncrypt
        [104, 101, 108, 108, 111] ⟨[], false, [], [], "00", "", "", "", .none⟩).1.processedData.length =
        16 + (cbcEncrypt (fun _ blk => blk) key (secBlock 16 []) [104, 101, 108, 108, 111]).length ∧
      (([104, 101, 108, 108, 111] : List Nat).length = 5 →
        (onProcess (fun _ blk => blk) (fun _ blk => blk) ⟨32, 16, 32⟩ ⟨[], [], [], []⟩ .aesEncrypt
          [104, 101, 108, 108, 111] ⟨[], false, [], [], "00", "", "", "", .none⟩).1.processedData.length = 32) :=
  encrypt_artifact_layout (fun _ blk => blk) (fun _ blk => blk) ⟨32, 16, 32⟩ ⟨[], [], [], []⟩
    [104, 101, 108, 108, 111] ⟨[], false, [], [], "00", "", "", "", .none⟩
    (Or.inr (Or.inr rfl)) rfl (fun _ _ h => h)

/-- C3: decryption of a ciphertext body that is empty or not a multiple of
16 fails with `invalidCiphertextLength`; a final block whose padding byte
is outside [1,16] or whose trailing bytes do not all equal it fails with
the distinct error `paddingError`; and the full Decrypt operation on a
16-byte all-zero input (IV present, empty ciphertext body) reports
`invalidCiphertextLength` without producing output. -/
theorem decrypt_error_paths (E D : List Nat → List Nat → List Nat) (cfg : Config) (rnd : Rng)
    (s : Session)
    (hkey : s.keyHexEdit ≠ "")
    (hkLen : cfg.aesKeyBytes = 16 ∨ cfg.aesKeyBytes = 24 ∨ cfg.aesKeyBytes = 32)
    (hivLen : cfg.aesIvBytes = 16) :
    (∀ k iv ct, ct.length = 0 ∨ ct.length % 16 ≠ 0 →
        cbcDecrypt D k iv ct = .error .invalidCiphertextLength) ∧
    (∀ k iv ct, ct.length ≠ 0 → ct.length % 16 = 0 →
        (((cbcDecBlocks D k iv (chunksOf 16 ct)).flatten.getLast?).getD 0 < 1 ∨
         16 < (((cbcDecBlocks D k iv (chunksOf 16 ct)).flatten.getLast?).getD 0) ∨
         (cbcDecBlocks D k iv (chunksOf 16 ct)).flatten.drop
             ((cbcDecBlocks D k iv (chunksOf 16 ct)).flatten.length -
              ((cbcDecBlocks D k iv (chunksOf 16 ct)).flatten.getLast?).getD 0) ≠
           List.replicate (((cbcDecBlocks D k iv (chunksOf 16 ct)).flatten.getLast?).getD 0)
             (((cbcDecBlocks D k iv (chunksOf 16 ct)).flatten.getLast?).getD 0)) →
        cbcDecrypt D k iv ct = .error .paddingError) ∧
    CryptoError.paddingError ≠ CryptoError.invalidCiphertextLength ∧
    onProcess E D cfg rnd .aesDecrypt (List.replicate 16 0) s =
      (s, .cryptoErr .invalidCiphertextLength) := by
  refine ⟨?_, ?_, by simp, ?_⟩
  · intro k iv ct h
    rw [cbcDecrypt, if_pos (by omega)]
  · intro k iv ct h0 h16 hbad
    rw [cbcDecrypt, if_neg (by omega), pkcsUnpad,
      if_neg (by
        simp only [pkcsPadOk, decide_eq_true_iff]
        intro hc
        obtain ⟨h1, h2, h3⟩ := hc
        rcases hbad with hb | hb | hb
        · omega
        · omega
        · exact hb h3)]
  · simp only [onProcess]
    rw [if_neg (by rw [hivLen]; simp), if_neg (fun h => hkey h)]
    rw [if_neg (not_not.mpr hkLen),
      if_neg (by
        simp only [List.length_take, List.length_replicate]
        rw [hivLen]
        omega)]
    have hdrop : (List.replicate 16 0 : List Nat).drop cfg.aesIvBytes = [] := by
      rw [hivLen]
      simp
    rw [hdrop, cbcDecrypt, if_pos (by simp)]

/-- Witness for C3 at concrete inputs: a 3-byte ciphertext body is
rejected as a length error, and the full Decrypt of 16 zero bytes under a
32-byte-key configuration reports `invalidCiphertextLength`. -/
theorem decrypt_error_paths_witness :
    cbcDecrypt (fun _ blk => blk) [0] [0] [1, 2, 3] = .error .invalidCiphertextLength ∧
    onProcess (fun _ blk => blk) (fun _ blk => blk) ⟨32, 16, 32⟩ ⟨[], [], [], []⟩ .aesDecrypt
        (List.replicate 16 0) ⟨[], false, [], [], "00", "", "", "", .none⟩ =
      (⟨[], false, [], [], "00", "", "", "", .none⟩, .cryptoErr .invalidCiphertextLength) := by
  have h := decrypt_error_paths (fun _ blk => blk) (fun _ blk => blk) ⟨32, 16, 32⟩ ⟨[], [], [], []⟩
    ⟨[], false, [], [], "00", "", "", "", .none⟩ (by simp) (Or.inr (Or.inr rfl)) rfl
  exact ⟨h.1 [0] [0] [1, 2, 3] (by simp), h.2.2.2⟩

/-- C4 counterexample: the key field "00" decodes to a single byte, which
does not match the configured 32-byte key size, yet the Encrypt operation
succeeds — no `KeyLengthMismatch` (or any other) error is raised. -/
theorem keyLength_not_enforced_cex :
    (hexDecodeLenient "00").length = 1 ∧ (1 : Nat) ≠ 32 ∧
    (onProcess (fun _ blk => blk) (fun _ blk => blk) ⟨32, 16, 32⟩ ⟨[], [], [], []⟩ .aesEncrypt
      [104, 101, 108, 108, 111] ⟨[], false, [], [], "00", "", "", "", .none⟩).2 = .ok := by
  refine ⟨rfl, by omega, ?_⟩
  have h := encrypt_artifact_layout (fun _ blk => blk) (fun _ blk => blk) ⟨32, 16, 32⟩
    ⟨[], [], [], []⟩ [104, 101, 108, 108, 111] ⟨[], false, [], [], "00", "", "", "", .none⟩
    (Or.inr (Or.inr rfl)) rfl (fun _ _ hb => hb)
  exact h.1

/-- C4 amended: a hex key whose decoded length differs from the configured
key size is not rejected — the decode is lenient, the decoded bytes are
written into a fixed-size key buffer (excess dropped, a short decode
leaving the rest of the buffer unspecified), and the operation proceeds:
under a valid configuration the Encrypt operation always reports success,
whatever the key field holds. -/
theorem key_decode_lenient (E D : List Nat → List Nat → List Nat) (cfg : Config)
    (rnd : Rng) (input : List Nat) (s : Session)
    (hkLen : cfg.aesKeyBytes = 16 ∨ cfg.aesKeyBytes = 24 ∨ cfg.aesKeyBytes = 32)
    (hivLen : cfg.aesIvBytes = 16) :
    (∀ init data, (arraySinkFill init data).length = init.length) ∧
    (onProcess E D cfg rnd .aesEncrypt input s).2 = .ok := by
  refine ⟨arraySinkFill_length, ?_⟩
  simp only [onProcess]
  rw [if_neg (not_not.mpr hkLen), if_neg (fun h => h hivLen)]

/-- Witness for the amended C4 at a concrete input. -/
theorem key_decode_lenient_witness :
    (∀ init data, (arraySinkFill init data).length = init.length) ∧
    (onProcess (fun _ blk => blk) (fun _ blk => blk) ⟨32, 16, 32⟩ ⟨[], [], [], []⟩ .aesEncrypt
      [1, 2, 3] ⟨[], false, [], [], "aabb", "", "", "", .none⟩).2 = .ok :=
  key_decode_lenient (fun _ blk => blk) (fun _ blk => blk) ⟨32, 16, 32⟩ ⟨[], [], [], []⟩
    [1, 2, 3] ⟨[], false, [], [], "aabb", "", "", "", .none⟩ (Or.inr (Or.inr rfl)) rfl

/-- C5 counterexample: an Encrypt with an empty key field under an invalid
configured key size (8 bytes) auto-generates a key and then fails in
`SetKeyWithIV`; the reported status is a failure, yet `processedData` and
`lastAction` no longer hold their pre-operation values. -/
theorem state_not_atomic_cex :
    (onProcess (fun _ blk => blk) (fun _ blk => blk) ⟨8, 16, 32⟩ ⟨[1, 2, 3], [4, 5], [], []⟩
        .aesEncrypt [7] ⟨[9], false, [], [], "", "", "", "", .processedData⟩).2 ≠ .ok ∧
    (onProcess (fun _ blk => blk) (fun _ blk => blk) ⟨8, 16, 32⟩ ⟨[1, 2, 3], [4, 5], [], []⟩
        .aesEncrypt [7] ⟨[9], false, [], [], "", "", "", "", .processedData⟩).1.processedData ≠
      [9] ∧
    (onProcess (fun _ blk => blk) (fun _ blk => blk) ⟨8, 16, 32⟩ ⟨[1, 2, 3], [4, 5], [], []⟩
        .aesEncrypt [7] ⟨[9], false, [], [], "", "", "", "", .processedData⟩).1.lastAction ≠
      .processedData := by
  refine ⟨?_, ?_, ?_⟩ <;> decide

/-- C5 amended: every failing operation leaves the session state exactly
as it was, EXCEPT an Encrypt started with an empty symmetric-key field,
which first runs the key generation; if the encryption then fails, the
session is left in the key-generation state (`lastAction = GeneratedKey`,
cleared `processedData`/`lastTextOutput`, updated key fields), not the
pre-operation state. -/
theorem failure_preserves_state (E D : List Nat → List Nat → List Nat) (cfg : Config)
    (rnd : Rng) (op : Op) (input : List Nat) (s : Session) :
    ((onProcess E D cfg rnd op input s).2 ≠ .ok →
      ¬(op = .aesEncrypt ∧ s.keyHexEdit = "") →
      (onProcess E D cfg rnd op input s).1 = s) ∧
    ((onProcess E D cfg rnd op input s).2 ≠ .ok → op = .aesEncrypt → s.keyHexEdit = "" →
      (onProcess E D cfg rnd op input s).1 = onGenerateKey cfg rnd s) := by
  cases op with
  | generateKey => exact ⟨fun hfail _ => absurd rfl hfail, fun _ h => by cases h⟩
  | aesEncrypt =>
    by_cases hk : s.keyHexEdit = ""
    · refine ⟨fun _ hcon => absurd ⟨rfl, hk⟩ hcon, fun hfail _ _ => ?_⟩
      revert hfail
      simp only [onProcess, if_pos hk]
      repeat' split
      all_goals first
        | exact fun _ => rfl
        | exact fun h => absurd rfl h
    · refine ⟨fun hfail _ => ?_, fun _ _ hk' => absurd hk' hk⟩
      revert hfail
      simp only [onProcess, if_neg hk]
      repeat' split
      all_goals first
        | exact fun _ => rfl
        | exact fun h => absurd rfl h
  | aesDecrypt =>
    refine ⟨fun hfail _ => ?_, fun _ h => by cases h⟩
    revert hfail
    simp only [onProcess]
    repeat' split
    all_goals first
      | exact fun _ => rfl
      | exact fun h => absurd rfl h
  | shaDigest => exact ⟨fun hfail _ => absurd rfl hfail, fun _ h => by cases h⟩
  | hmacSign => exact ⟨fun hfail _ => absurd rfl hfail, fun _ h => by cases h⟩
  | other => exact ⟨fun _ _ => rfl, fun _ h => by cases h⟩

/-- Witness for the amended C5: a concrete failing Decrypt (input shorter
than the IV) leaves the session untouched. -/
theorem failure_preserves_state_witness :
    (onProcess (fun _ blk => blk) (fun _ blk => blk) ⟨32, 16, 32⟩ ⟨[], [], [], []⟩ .aesDecrypt
      [0] ⟨[], false, [], [], "00", "", "", "", .none⟩).1 =
      ⟨[], false, [], [], "00", "", "", "", .none⟩ :=
  (failure_preserves_state (fun _ blk => blk) (fun _ blk => blk) ⟨32, 16, 32⟩ ⟨[], [], [], []⟩
    .aesDecrypt [0] ⟨[], false, [], [], "00", "", "", "", .none⟩).1
    (by decide) (by decide)

/-! ## UTF-8 decoder lemmas: ASCII suffixes decode independently -/

theorem ascii_not_cont {y : Nat} (h : y < 0x80) : isCont y = false := by
  simp only [isCont, decide_eq_false_iff_not]
  omega

theorem ascii_not_cont3 {y : Nat} (b : Nat) (h : y < 0x80) : cont3ok b y = false := by
  simp only [cont3ok]
  split
  · simp only [decide_eq_false_iff_not]; omega
  · split
    · simp only [decide_eq_false_iff_not]; omega
    · exact ascii_not_cont h

theorem ascii_not_cont4 {y : Nat} (b : Nat) (h : y < 0x80) : cont4ok b y = false := by
  simp only [cont4ok]
  split
  · simp only [decide_eq_false_iff_not]; omega
  · split
    · simp only [decide_eq_false_iff_not]; omega
    · exact ascii_not_cont h

theorem utf8DecodeGo_ascii :
    ∀ (f : Nat) (l : List Nat), l.length ≤ f → (∀ y ∈ l, y < 0x80) →
      utf8DecodeGo f l = l := by
  intro f
  induction f with
  | zero =>
    intro l h _
    have : l = [] := List.eq_nil_of_length_eq_zero (Nat.le_zero.mp h)
    subst this
    rfl
  | succ f ih =>
    intro l h hall
    cases l with
    | nil => rfl
    | cons b rest =>
      have hb : b < 0x80 := hall b (by simp)
      simp only [utf8DecodeGo, utf8Step, if_pos hb]
      rw [ih rest (by simpa using h) (fun y hy => hall y (by simp [hy]))]

theorem utf8DecodeGo_append_ascii :
    ∀ (f : Nat) (xs ys : List Nat), xs.length ≤ f → (∀ y ∈ ys, y < 0x80) →
      utf8DecodeGo (f + ys.length) (xs ++ ys) = utf8DecodeGo f xs ++ ys := by
  intro f
  induction f with
  | zero =>
    intro xs ys h hys
    have : xs = [] := List.eq_nil_of_length_eq_zero (Nat.le_zero.mp h)
    subst this
    simp only [List.nil_append, Nat.zero_add]
    rw [utf8DecodeGo_ascii _ ys (Nat.le_refl _) hys]
    cases ys <;> rfl
  | succ f ih =>
    intro xs ys h hys
    cases xs with
    | nil =>
      simp only [List.nil_append]
      rw [utf8DecodeGo_ascii _ ys (by omega) hys]
      cases ys <;> rfl
    | cons b rest =>
      have hl : rest.length ≤ f := by simpa using h
      have hshift : f + 1 + ys.length = (f + ys.length) + 1 := by omega
      rw [List.cons_append, hshift]
      simp only [utf8DecodeGo]
      by_cases h1 : b < 0x80
      · have hih := ih rest ys hl hys
        try simp only [List.cons_append, List.nil_append, List.length_cons, List.length_nil] at hih
        simp [utf8Step, h1, hih]
      · by_cases h2 : b < 0xC2
        · have hih := ih rest ys hl hys
          try simp only [List.cons_append, List.nil_append, List.length_cons, List.length_nil] at hih
          simp [utf8Step, h1, h2, hih]
        · by_cases h3 : b < 0xE0
          · -- two-byte lead
            cases rest with
            | nil =>
              cases ys with
              | nil => simp [utf8Step, h1, h2, h3]
              | cons y ys1 =>
                have hy : y < 0x80 := hys y (by simp)
                have hrest : utf8DecodeGo (f + (y :: ys1).length) (y :: ys1) = y :: ys1 :=
                  utf8DecodeGo_ascii _ _ (by simp) hys
                try simp only [List.cons_append, List.nil_append, List.length_cons, List.length_nil] at hrest
                simp [utf8Step, h1, h2, h3, ascii_not_cont hy, hrest]
            | cons c1 r2 =>
              by_cases hc : isCont c1
              · have hih := ih r2 ys (by simp at hl; omega) hys
                try simp only [List.cons_append, List.nil_append, List.length_cons, List.length_nil] at hih
                simp [utf8Step, h1, h2, h3, hc, hih]
              · have hih := ih (c1 :: r2) ys (by simpa using hl) hys
                try simp only [List.cons_append, List.nil_append, List.length_cons, List.length_nil] at hih
                simp [utf8Step, h1, h2, h3, hc, hih]
          · by_cases h4 : b < 0xF0
            · -- three-byte lead
              cases rest with
              | nil =>
                cases ys with
                | nil => simp [utf8Step, h1, h2, h3, h4]
                | cons y1 ys1 =>
                  cases ys1 with
                  | nil =>
                    have hrest : utf8DecodeGo (f + [y1].length) [y1] = [y1] :=
                      utf8DecodeGo_ascii _ _ (by simp) hys
                    try simp only [List.cons_append, List.nil_append, List.length_cons, List.length_nil] at hrest
                    simp [utf8Step, h1, h2, h3, h4, hrest]
                  | cons y2 ys2 =>
                    have hy1 : y1 < 0x80 := hys y1 (by simp)
                    have hrest : utf8DecodeGo (f + (y1 :: y2 :: ys2).length) (y1 :: y2 :: ys2) =
                        y1 :: y2 :: ys2 :=
                      utf8DecodeGo_ascii _ _ (by simp only [List.length_cons, List.length_nil]; omega) hys
                    try simp only [List.cons_append, List.nil_append, List.length_cons, List.length_nil] at hrest
                    simp [utf8Step, h1, h2, h3, h4, ascii_not_cont3 b hy1, hrest]
              | cons c1 r2 =>
                cases r2 with
                | nil =>
                  cases ys with
                  | nil => simp [utf8Step, h1, h2, h3, h4]
                  | cons y1 ys1 =>
                    have hy1 : y1 < 0x80 := hys y1 (by simp)
                    have hih := ih [c1] (y1 :: ys1) (by simpa using hl) hys
                    try simp only [List.cons_append, List.nil_append, List.length_cons, List.length_nil] at hih
                    try simp only [List.cons_append, List.nil_append, List.length_cons, List.length_nil] at hih
                    simp [utf8Step, h1, h2, h3, h4, ascii_not_cont hy1, hih]
                | cons c2 r3 =>
                  by_cases hcc : cont3ok b c1 && isCont c2
                  · have hih := ih r3 ys (by simp at hl; omega) hys
                    try simp only [List.cons_append, List.nil_append, List.length_cons, List.length_nil] at hih
                    simp [utf8Step, h1, h2, h3, h4, hcc, hih]
                  · have hih := ih (c1 :: c2 :: r3) ys (by simpa using hl) hys
                    try simp only [List.cons_append, List.nil_append, List.length_cons, List.length_nil] at hih
                    simp [utf8Step, h1, h2, h3, h4, hcc, hih]
            · by_cases h5 : b ≤ 0xF4
              · -- four-byte lead
                cases rest with
                | nil =>
                  cases ys with
                  | nil => simp [utf8Step, h1, h2, h3, h4, h5]
                  | cons y1 ys1 =>
                    cases ys1 with
                    | nil =>
                      have hrest : utf8DecodeGo (f + [y1].length) [y1] = [y1] :=
                        utf8DecodeGo_ascii _ _ (by simp) hys
                      try simp only [List.cons_append, List.nil_append, List.length_cons, List.length_nil] at hrest
                      simp [utf8Step, h1, h2, h3, h4, h5, hrest]
                    | cons y2 ys2 =>
                      cases ys2 with
                      | nil =>
                        have hrest : utf8DecodeGo (f + [y1, y2].length) [y1, y2] = [y1, y2] :=
                          utf8DecodeGo_ascii _ _ (by simp only [List.length_cons, List.length_nil]; omega) hys
                        try simp only [List.cons_append, List.nil_append, List.length_cons, List.length_nil] at hrest
                        simp [utf8Step, h1, h2, h3, h4, h5, hrest]
                      | cons y3 ys3 =>
                        have hy1 : y1 < 0x80 := hys y1 (by simp)
                        have hrest : utf8DecodeGo (f + (y1 :: y2 :: y3 :: ys3).length)
                            (y1 :: y2 :: y3 :: ys3) = y1 :: y2 :: y3 :: ys3 :=
                          utf8DecodeGo_ascii _ _ (by simp only [List.length_cons, List.length_nil]; omega) hys
                        try simp only [List.cons_append, List.nil_append, List.length_cons, List.length_nil] at hrest
                        simp [utf8Step, h1, h2, h3, h4, h5, ascii_not_cont4 b hy1, hrest]
                | cons c1 r2 =>
                  cases r2 with
                  | nil =>
                    cases ys with
                    | nil => simp [utf8Step, h1, h2, h3, h4, h5]
                    | cons y1 ys1 =>
                      cases ys1 with
                      | nil =>
                        have hih := ih [c1] [y1] (by simpa using hl) hys
                        try simp only [List.cons_append, List.nil_append, List.length_cons, List.length_nil] at hih
                        try simp only [List.cons_append, List.nil_append, List.length_cons, List.length_nil] at hih
                        simp [utf8Step, h1, h2, h3, h4, h5, hih]
                      | cons y2 ys2 =>
                        have hy2 : y2 < 0x80 := hys y2 (by simp)
                        have hih := ih [c1] (y1 :: y2 :: ys2) (by simpa using hl) hys
                        try simp only [List.cons_append, List.nil_append, List.length_cons, List.length_nil] at hih
                        try simp only [List.cons_append, List.nil_append, List.length_cons, List.length_nil] at hih
                        simp [utf8Step, h1, h2, h3, h4, h5, ascii_not_cont hy2, hih]
                  | cons c2 r3 =>
                    cases r3 with
                    | nil =>
                      cases ys with
                      | nil => simp [utf8Step, h1, h2, h3, h4, h5]
                      | cons y1 ys1 =>
                        have hy1 : y1 < 0x80 := hys y1 (by simp)
                        have hih := ih [c1, c2] (y1 :: ys1) (by simp only [List.length_cons, List.length_nil] at hl ⊢; omega) hys
                        try simp only [List.cons_append, List.nil_append, List.length_cons, List.length_nil] at hih
                        try simp only [List.cons_append, List.nil_append, List.length_cons, List.length_nil] at hih
                        simp [utf8Step, h1, h2, h3, h4, h5, ascii_not_cont hy1, hih]
                    | cons c3 r4 =>
                      by_cases hcc : cont4ok b c1 && isCont c2 && isCont c3
                      · have hih := ih r4 ys (by simp at hl; omega) hys
                        try simp only [List.cons_append, List.nil_append, List.length_cons, List.length_nil] at hih
                        simp [utf8Step, h1, h2, h3, h4, h5, hcc, hih]
                      · have hih := ih (c1 :: c2 :: c3 :: r4) ys (by simpa using hl) hys
                        try simp only [List.cons_append, List.nil_append, List.length_cons, List.length_nil] at hih
                        simp [utf8Step, h1, h2, h3, h4, h5, hcc, hih]
              · -- invalid lead above 0xF4
                have hih := ih rest ys hl hys
                try simp only [List.cons_append, List.nil_append, List.length_cons, List.length_nil] at hih
                try simp only [List.cons_append, List.nil_append, List.length_cons, List.length_nil] at hih
                simp [utf8Step, h1, h2, h3, h4, h5, hih]

/-- Decoding a buffer followed by ASCII text (`QString::fromUtf8`) gives the
decoded buffer followed by that ASCII text. -/
theorem utf8Decode_append_ascii (xs ys : List Nat) (hys : ∀ y ∈ ys, y < 0x80) :
    utf8Decode (xs ++ ys) = utf8Decode xs ++ ys := by
  rw [utf8Decode, utf8Decode, List.length_append]
  exact utf8DecodeGo_append_ascii xs.length xs ys (Nat.le_refl _) hys

/-! ## Digest, MAC and hex length lemmas -/

theorem sha256_length (msg : List Nat) : (sha256 msg).length = 32 := by
  simp [sha256, wordBytes]

theorem sha256_mem_lt (msg : List Nat) : ∀ y ∈ sha256 msg, y < 256 := by
  intro y hy
  have h8 : ∀ w, ∀ z ∈ wordBytes w, z < 256 := by
    intro w z hz
    simp only [wordBytes, List.mem_cons, List.not_mem_nil, or_false] at hz
    rcases hz with rfl | rfl | rfl | rfl <;> exact Nat.mod_lt _ (by omega)
  simp only [sha256, List.mem_append] at hy
  rcases hy with ((((((hy | hy) | hy) | hy) | hy) | hy) | hy) | hy <;> exact h8 _ _ hy

theorem hmacSha256_length (key msg : List Nat) : (hmacSha256 key msg).length = 32 := by
  unfold hmacSha256
  exact sha256_length _

theorem hmacSha256_mem_lt (key msg : List Nat) : ∀ y ∈ hmacSha256 key msg, y < 256 := by
  unfold hmacSha256
  exact sha256_mem_lt _

theorem hexLower_data_length (l : List Nat) : (hexLower l).data.length = 2 * l.length := by
  induction l with
  | nil => rfl
  | cons b t ih =>
    simp only [hexLower, List.flatMap_cons, String.data] at ih ⊢
    simp only [List.length_append, List.length_cons, List.length_nil] at ih ⊢
    omega

theorem hexUpper_data_length (l : List Nat) : (hexUpper l).data.length = 2 * l.length := by
  induction l with
  | nil => rfl
  | cons b t ih =>
    simp only [hexUpper, List.flatMap_cons, String.data] at ih ⊢
    simp only [List.length_append, List.length_cons, List.length_nil] at ih ⊢
    omega

theorem hexDigitsLower_getD_lt (i : Nat) : (hexDigitsLower.getD i '?').toNat < 128 := by
  by_cases h : i < 16
  · interval_cases i <;> decide
  · rw [List.getD_eq_default _ _ (by simp [hexDigitsLower]; omega)]
    decide

theorem asciiCodes_hexLower_lt (l : List Nat) : ∀ y ∈ asciiCodes (hexLower l), y < 0x80 := by
  intro y hy
  simp only [asciiCodes, List.mem_map] at hy
  obtain ⟨c, hc, rfl⟩ := hy
  simp only [hexLower, String.data, List.mem_flatMap, List.mem_cons, List.not_mem_nil,
    or_false] at hc
  obtain ⟨b, _, hcb⟩ := hc
  rcases hcb with rfl | rfl <;> exact hexDigitsLower_getD_lt _

theorem asciiCodes_length (s : String) : (asciiCodes s).length = s.data.length := by
  simp [asciiCodes]

/-- C6: the Mac operation resolves its key by priority (explicit HMAC key
field, else symmetric key field, else a fresh key surfaced back into the
HMAC field), succeeds, and produces both the binary artifact
`input ++ rawTag(32)` and, separately retained, the text preview
`utf8(input) ++ hexTag(64 chars)` with no separator. -/
theorem mac_output_structure (E D : List Nat → List Nat → List Nat) (cfg : Config) (rnd : Rng)
    (input : List Nat) (s : Session) :
    (onProcess E D cfg rnd .hmacSign input s).2 = .ok ∧
    (s.hmacKeyEdit ≠ "" →
      (resolveHmacKey cfg rnd s).1 =
        arraySinkFill (secBlock cfg.hmacKeyBytes rnd.junk) (hexDecodeLenient s.hmacKeyEdit) ∧
      (resolveHmacKey cfg rnd s).2 = s) ∧
    (s.hmacKeyEdit = "" → s.keyHexEdit ≠ "" →
      (resolveHmacKey cfg rnd s).1 =
        arraySinkFill (secBlock cfg.hmacKeyBytes rnd.junk) (hexDecodeLenient s.keyHexEdit) ∧
      (resolveHmacKey cfg rnd s).2 = s) ∧
    (s.hmacKeyEdit = "" → s.keyHexEdit = "" →
      (resolveHmacKey cfg rnd s).1 = secBlock cfg.hmacKeyBytes rnd.freshHmac ∧
      (resolveHmacKey cfg rnd s).2.hmacKeyEdit =
        hexUpper (secBlock cfg.hmacKeyBytes rnd.freshHmac) ∧
      (resolveHmacKey cfg rnd s).2.lastGeneratedHmacKeyHex =
        hexUpper (secBlock cfg.hmacKeyBytes rnd.freshHmac)) ∧
    (onProcess E D cfg rnd .hmacSign input s).1.hmacKeyEdit =
      (resolveHmacKey cfg rnd s).2.hmacKeyEdit ∧
    (onProcess E D cfg rnd .hmacSign input s).1.processedData =
      input ++ hmacSha256 (resolveHmacKey cfg rnd s).1 input ∧
    (hmacSha256 (resolveHmacKey cfg rnd s).1 input).length = 32 ∧
    (onProcess E D cfg rnd .hmacSign input s).1.outputText =
      utf8Decode input ++
        asciiCodes (hexLower (hmacSha256 (resolveHmacKey cfg rnd s).1 input)) ∧
    (asciiCodes (hexLower (hmacSha256 (resolveHmacKey cfg rnd s).1 input))).length = 64 ∧
    (onProcess E D cfg rnd .hmacSign input s).1.lastTextOutput =
      (onProcess E D cfg rnd .hmacSign input s).1.outputText ∧
    (onProcess E D cfg rnd .hmacSign input s).1.lastOutputIsText = true := by
  rcases hres : resolveHmacKey cfg rnd s with ⟨key, s1⟩
  have happ : utf8Decode (input ++ asciiCodes (hexLower (hmacSha256 key input))) =
      utf8Decode input ++ asciiCodes (hexLower (hmacSha256 key input)) :=
    utf8Decode_append_ascii _ _ (asciiCodes_hexLower_lt _)
  have hlen64 : (asciiCodes (hexLower (hmacSha256 key input))).length = 64 := by
    rw [asciiCodes_length, hexLower_data_length, hmacSha256_length]
  refine ⟨?_, ?_, ?_, ?_, ?_, ?_, ?_, ?_, ?_, ?_, ?_⟩
  · simp only [onProcess, hres]
  · intro hne
    unfold resolveHmacKey at hres
    rw [if_pos hne] at hres
    injection hres with h1 h2
    exact ⟨h1.symm, h2.symm⟩
  · intro he hne
    unfold resolveHmacKey at hres
    rw [if_neg (not_not_intro he), if_pos hne] at hres
    injection hres with h1 h2
    exact ⟨h1.symm, h2.symm⟩
  · intro he hke
    unfold resolveHmacKey at hres
    rw [if_neg (not_not_intro he), if_neg (not_not_intro hke)] at hres
    injection hres with h1 h2
    refine ⟨h1.symm, ?_, ?_⟩
    · rw [← h2]
    · rw [← h2]
  · simp only [onProcess, hres]
  · simp only [onProcess, hres]
  · simp only [hres]
    exact hmacSha256_length _ _
  · simp only [onProcess, hres]
    exact happ
  · simp only [hres]
    exact hlen64
  · simp only [onProcess, hres]
  · simp only [onProcess, hres]

/-- Witness for C6 at a concrete input (explicit HMAC key field "aa"). -/
theorem mac_output_structure_witness :
    (onProcess (fun _ blk => blk) (fun _ blk => blk) ⟨32, 16, 32⟩ ⟨[], [], [], []⟩ .hmacSign
      [104] ⟨[], false, [], [], "", "aa", "", "", .none⟩).2 = .ok ∧
    (resolveHmacKey ⟨32, 16, 32⟩ ⟨[], [], [], []⟩ ⟨[], false, [], [], "", "aa", "", "", .none⟩).1 =
      arraySinkFill (secBlock 32 []) (hexDecodeLenient "aa") ∧
    (onProcess (fun _ blk => blk) (fun _ blk => blk) ⟨32, 16, 32⟩ ⟨[], [], [], []⟩ .hmacSign
      [104] ⟨[], false, [], [], "", "aa", "", "", .none⟩).1.processedData =
      [104] ++ hmacSha256
        (resolveHmacKey ⟨32, 16, 32⟩ ⟨[], [], [], []⟩
          ⟨[], false, [], [], "", "aa", "", "", .none⟩).1 [104] := by
  have h := mac_output_structure (fun _ blk => blk) (fun _ blk => blk) ⟨32, 16, 32⟩
    ⟨[], [], [], []⟩ [104] ⟨[], false, [], [], "", "aa", "", "", .none⟩
  exact ⟨h.1, (h.2.1 (by decide)).1, h.2.2.2.2.2.1⟩

/-- C7 counterexample: on the empty buffer the code classifies as Binary
(no text preview), while the spec's ordered algorithm classifies it as
Utf8Text (the empty decode re-encodes to the empty buffer). -/
theorem sniff_empty_cex :
    sniff ([] : List Nat) = .binary ∧
    sniffSpec ([] : List Nat) = .utf8Text [] ∧
    SniffResult.binary ≠ SniffResult.utf8Text [] := by
  refine ⟨rfl, ?_, by decide⟩
  rfl

/-- C7 amended: for every NON-empty decrypted buffer the code's
classification agrees exactly with the spec's ordered algorithm (strict
UTF-8 round-trip first, then the UTF-16LE heuristic with even length,
else Binary); the empty buffer is classified Binary by the code. -/
theorem sniff_matches_spec (pd : List Nat) (hne : pd ≠ []) : sniff pd = sniffSpec pd := by
  rw [sniff, sniffSpec, if_neg hne]
  by_cases hr : utf8Encode (utf8Decode pd) = pd
  · rw [if_pos hr, if_pos hr]
  · rw [if_neg hr, if_neg hr]
    by_cases hlen : 2 ≤ pd.length
    · by_cases hX : pd.take 2 = [0xFF, 0xFE] ∨ 3 < zerosOdd pd (min (pd.length - 1) 200)
      · by_cases heven : pd.length % 2 = 0
        · rw [if_pos ⟨⟨hlen, hX⟩, heven⟩, if_pos ⟨hX, heven⟩]
        · rw [if_neg (fun hc => heven hc.2), if_neg (fun hc => heven hc.2)]
      · rw [if_neg (fun hc => hX hc.1.2), if_neg (fun hc => hX hc.1)]
    · have h1 : pd.length = 1 := by
        have : pd.length ≠ 0 := by simpa using hne
        omega
      have hX : ¬(pd.take 2 = [0xFF, 0xFE] ∨ 3 < zerosOdd pd (min (pd.length - 1) 200)) := by
        rintro (hc | hc)
        · have := congrArg List.length hc
          simp only [List.length_take, List.length_cons, List.length_nil] at this
          omega
        · rw [h1] at hc
          simp only [zerosOdd, Nat.min_def] at hc
          norm_num at hc
      rw [if_neg (fun hc => hlen hc.1.1), if_neg (fun hc => hX hc.1)]

/-- Witness for the amended C7 at a concrete non-empty buffer. -/
theorem sniff_matches_spec_witness : sniff [104] = sniffSpec [104] :=
  sniff_matches_spec [104] (by decide)

theorem hexLower_mem (l : List Nat) (hl : ∀ b ∈ l, b < 256) :
    ∀ c ∈ (hexLower l).data, c ∈ hexDigitsLower := by
  intro c hc
  simp only [hexLower, String.data, List.mem_flatMap, List.mem_cons, List.not_mem_nil,
    or_false] at hc
  obtain ⟨b, hb, hcb⟩ := hc
  have h1 : b / 16 < 16 := by have := hl b hb; omega
  have h2 : b % 16 < 16 := Nat.mod_lt _ (by omega)
  have hlen : hexDigitsLower.length = 16 := rfl
  rcases hcb with rfl | rfl
  · rw [List.getD_eq_getElem _ _ (by omega)]
    exact List.getElem_mem _
  · rw [List.getD_eq_getElem _ _ (by omega)]
    exact List.getElem_mem _

set_option maxRecDepth 40000 in
/-- C8: the Digest operation always succeeds (no error path, including the
empty input), retains no binary artifact, and outputs (and retains as the
text output) the SHA-256 digest as a 64-character hex string over the
lowercase alphabet; the digest of the empty input is the standard
constant. -/
theorem digest_contract (E D : List Nat → List Nat → List Nat) (cfg : Config) (rnd : Rng)
    (input : List Nat) (s : Session) :
    (onProcess E D cfg rnd .shaDigest input s).2 = .ok ∧
    (onProcess E D cfg rnd .shaDigest input s).1.outputText =
      asciiCodes (hexLower (sha256 input)) ∧
    (onProcess E D cfg rnd .shaDigest input s).1.lastTextOutput =
      asciiCodes (hexLower (sha256 input)) ∧
    (onProcess E D cfg rnd .shaDigest input s).1.processedData = [] ∧
    (hexLower (sha256 input)).data.length = 64 ∧
    (∀ c ∈ (hexLower (sha256 input)).data, c ∈ hexDigitsLower) ∧
    hexLower (sha256 []) =
      "e3b0c44298fc1c149afbf4c8996fb92427ae41e4649b934ca495991b7852b855" := by
  refine ⟨rfl, rfl, rfl, rfl, ?_, hexLower_mem _ (sha256_mem_lt input), ?_⟩
  · rw [hexLower_data_length, sha256_length]
  · decide

/-- Witness for C8: a concrete run on the empty input, with the lowercase
membership instantiated at the first digest character. -/
theorem digest_contract_witness :
    (onProcess (fun _ blk => blk) (fun _ blk => blk) ⟨32, 16, 32⟩ ⟨[], [], [], []⟩ .shaDigest
      [] ⟨[], false, [], [], "", "", "", "", .none⟩).2 = .ok ∧
    ('e' ∈ (hexLower (sha256 [])).data → 'e' ∈ hexDigitsLower) := by
  have h := digest_contract (fun _ blk => blk) (fun _ blk => blk) ⟨32, 16, 32⟩ ⟨[], [], [], []⟩
    [] ⟨[], false, [], [], "", "", "", "", .none⟩
  exact ⟨h.1, h.2.2.2.2.2.1 'e'⟩

theorem hexUpper_mem (l : List Nat) (hl : ∀ b ∈ l, b < 256) :
    ∀ c ∈ (hexUpper l).data, c ∈ hexDigitsUpper := by
  intro c hc
  simp only [hexUpper, String.data, List.mem_flatMap, List.mem_cons, List.not_mem_nil,
    or_false] at hc
  obtain ⟨b, hb, hcb⟩ := hc
  have h1 : b / 16 < 16 := by have := hl b hb; omega
  have h2 : b % 16 < 16 := Nat.mod_lt _ (by omega)
  have hlen : hexDigitsUpper.length = 16 := rfl
  rcases hcb with rfl | rfl
  · rw [List.getD_eq_getElem _ _ (by omega)]
    exact List.getElem_mem _
  · rw [List.getD_eq_getElem _ _ (by omega)]
    exact List.getElem_mem _

/-- C9 counterexample: the key generator encodes through Crypto++'s
default (uppercase) `HexEncoder`: generating with the key byte 0xAB puts
"AB" in the key field, which is not the lowercase encoding "ab". -/
theorem generator_hex_uppercase_cex :
    (onGenerateKey ⟨1, 16, 1⟩ ⟨[0xAB], [0xCD], [], []⟩
      ⟨[], false, [], [], "", "", "", "", .none⟩).keyHexEdit = "AB" ∧
    hexLower [0xAB] = "ab" ∧
    ("AB" : String) ≠ "ab" := by
  refine ⟨rfl, rfl, by decide⟩

/-- C9 amended: every hex encoding at the core's boundary is
deterministic with output length exactly 2 times the byte length and no
separators, and draws from a single fixed 16-character alphabet per call
site — LOWERCASE for the digest and MAC hex, but UPPERCASE for the key
hex produced by the key generator (Crypto++ `HexEncoder` default). -/
theorem hex_encoding_properties (l : List Nat) (hl : ∀ b ∈ l, b < 256) :
    (hexLower l).data.length = 2 * l.length ∧
    (hexUpper l).data.length = 2 * l.length ∧
    (∀ c ∈ (hexLower l).data, c ∈ hexDigitsLower) ∧
    (∀ c ∈ (hexUpper l).data, c ∈ hexDigitsUpper) ∧
    (∀ cfg rnd s,
      (onGenerateKey cfg rnd s).keyHexEdit =
        hexUpper (secBlock cfg.aesKeyBytes rnd.freshSym) ∧
      (onGenerateKey cfg rnd s).hmacKeyEdit =
        hexUpper (secBlock cfg.hmacKeyBytes rnd.freshHmac)) ∧
    (∀ (E D : List Nat → List Nat → List Nat) cfg rnd input s,
      (onProcess E D cfg rnd .shaDigest input s).1.outputText =
        asciiCodes (hexLower (sha256 input))) :=
  ⟨hexLower_data_length l, hexUpper_data_length l, hexLower_mem l hl, hexUpper_mem l hl,
   fun _ _ _ => ⟨rfl, rfl⟩, fun _ _ _ _ _ _ => rfl⟩

/-- Witness for the amended C9 at the byte 0xAB. -/
theorem hex_encoding_properties_witness :
    (hexLower [0xAB]).data.length = 2 * ([0xAB] : List Nat).length ∧
    (hexUpper [0xAB]).data.length = 2 * ([0xAB] : List Nat).length :=
  ⟨(hex_encoding_properties [0xAB] (by decide)).1,
   (hex_encoding_properties [0xAB] (by decide)).2.1⟩

/-- C10: when a Decrypt recovers a plaintext that classifies as text, the
retained text output is the FULL decoded string and the bytes of a
subsequent text export are its UTF-8 encoding; only the on-screen preview
is truncated to the first 10000 characters, and that truncation does not
affect the exported bytes. -/
theorem decrypt_text_export_full (E D : List Nat → List Nat → List Nat) (cfg : Config)
    (rnd : Rng) (input rec : List Nat) (s : Session)
    (hkey : s.keyHexEdit ≠ "")
    (hkLen : cfg.aesKeyBytes = 16 ∨ cfg.aesKeyBytes = 24 ∨ cfg.aesKeyBytes = 32)
    (hivLen : cfg.aesIvBytes = 16)
    (hlong : ¬ input.length < cfg.aesIvBytes)
    (hdec : cbcDecrypt D
        (arraySinkFill (secBlock cfg.aesKeyBytes rnd.junk) (hexDecodeLenient s.keyHexEdit))
        (input.take cfg.aesIvBytes) (input.drop cfg.aesIvBytes) = .ok rec) :
    (∀ dec, sniff rec = .utf8Text dec →
      (onProcess E D cfg rnd .aesDecrypt input s).1.lastTextOutput = dec ∧
      (onProcess E D cfg rnd .aesDecrypt input s).1.outputText = dec.take 10000 ∧
      downloadBytes (onProcess E D cfg rnd .aesDecrypt input s).1 = utf8Encode dec) ∧
    (∀ u16, sniff rec = .utf16Text u16 →
      (onProcess E D cfg rnd .aesDecrypt input s).1.lastTextOutput = u16 ∧
      (onProcess E D cfg rnd .aesDecrypt input s).1.outputText = u16.take 10000 ∧
      downloadBytes (onProcess E D cfg rnd .aesDecrypt input s).1 = utf8Encode u16) := by
  have hiv16 : (input.take cfg.aesIvBytes).length = 16 := by
    simp only [List.length_take]
    omega
  constructor
  · intro dec hsn
    have hstep : onProcess E D cfg rnd .aesDecrypt input s =
        ({ s with
            processedData := rec
            lastOutputIsText := true
            lastTextOutput := dec
            outputText := dec.take 10000
            lastAction := .processedData }, .ok) := by
      simp only [onProcess, if_neg hlong, if_neg (fun h => hkey h), if_neg (not_not.mpr hkLen),
        if_neg (not_not_intro hiv16), hdec, hsn]
    rw [hstep]
    exact ⟨rfl, rfl, rfl⟩
  · intro u16 hsn
    have hstep : onProcess E D cfg rnd .aesDecrypt input s =
        ({ s with
            processedData := rec
            lastOutputIsText := true
            lastTextOutput := u16
            outputText := u16.take 10000
            lastAction := .processedData }, .ok) := by
      simp only [onProcess, if_neg hlong, if_neg (fun h => hkey h), if_neg (not_not.mpr hkLen),
        if_neg (not_not_intro hiv16), hdec, hsn]
    rw [hstep]
    exact ⟨rfl, rfl, rfl⟩

set_option maxRecDepth 40000 in
/-- Witness for C10: decrypting a concrete artifact whose plaintext is
"hello" retains the full decoded text and exports its UTF-8 bytes. -/
theorem decrypt_text_export_full_witness :
    (onProcess (fun _ blk => blk) (fun _ blk => blk) ⟨32, 16, 32⟩ ⟨[], [], [], []⟩ .aesDecrypt
        (List.replicate 16 0 ++ ([104, 101, 108, 108, 111] ++ List.replicate 11 11))
        ⟨[], false, [], [], "00", "", "", "", .none⟩).1.lastTextOutput =
      [104, 101, 108, 108, 111] ∧
    downloadBytes (onProcess (fun _ blk => blk) (fun _ blk => blk) ⟨32, 16, 32⟩ ⟨[], [], [], []⟩
        .aesDecrypt (List.replicate 16 0 ++ ([104, 101, 108, 108, 111] ++ List.replicate 11 11))
        ⟨[], false, [], [], "00", "", "", "", .none⟩).1 =
      utf8Encode [104, 101, 108, 108, 111] := by
  have h := decrypt_text_export_full (fun _ blk => blk) (fun _ blk => blk) ⟨32, 16, 32⟩
    ⟨[], [], [], []⟩ (List.replicate 16 0 ++ ([104, 101, 108, 108, 111] ++ List.replicate 11 11))
    [104, 101, 108, 108, 111] ⟨[], false, [], [], "00", "", "", "", .none⟩
    (by decide) (Or.inr (Or.inr rfl)) rfl (by decide) (by decide)
  have h2 := h.1 [104, 101, 108, 108, 111] (by decide)
  exact ⟨h2.1, h2.2.2⟩

end CryptoApp
